import Mathlib

/-!
Verification of `src/Weaviate.ts` (classes `WeaviateDataManager` and
`WeaviateMethodHandler`).  The TypeScript code is shallowly embedded:
pure computations become Lean functions, the outcomes of the remote
calls (vector store, completion API, chat transport) are passed in as
explicit world records, JavaScript exceptions become `Except`, and the
persistence side effects of a routine are returned as an explicit call
trace.  The aliasing behaviour of `StoreDiscordMessagePayload` is
additionally modelled on an explicit heap of JavaScript objects.
-/

namespace WeaviateHandler

/-! ## JavaScript value trees

Values handled by `WeaviateDataManager.StoreDiscordMessagePayload`
(src/Weaviate.ts lines 215-241).  An object is encoded as a chain of
`fcons` field cells ended by `fnil`; `jnull` and `jundef` are the
JavaScript values `null` and `undefined`. -/

inductive Jx : Type where
  | jnull : Jx
  | jundef : Jx
  | jstr : String → Jx
  | jnum : Int → Jx
  | jbool : Bool → Jx
  | fnil : Jx
  | fcons : String → Jx → Jx → Jx
deriving DecidableEq

/-- First-match field lookup, `obj[key]` for a present key (`none` when the
key is absent or the value is not an object). -/
def fget : Jx → String → Option Jx
  | .fcons k v rest, key => if k = key then some v else fget rest key
  | _, _ => none

/-- `key in obj`. -/
def fhasKey (v : Jx) (key : String) : Bool := (fget v key).isSome

/-- Overwrite the value of an existing field, keeping its position —
what a JavaScript assignment or a later spread entry does to a key that
is already present. -/
def fset : Jx → String → Jx → Jx
  | .fcons k v rest, key, w =>
    if k = key then .fcons k w (fset rest key w) else .fcons k v (fset rest key w)
  | v, _, _ => v

/-- Append a fresh field at the end of the object, as a JavaScript
assignment to an absent key does. -/
def fappend : Jx → String → Jx → Jx
  | .fcons k v rest, key, w => .fcons k v (fappend rest key w)
  | .fnil, key, w => .fcons key w .fnil
  | v, _, _ => v

/-- JavaScript object-literal / assignment semantics for one key:
overwrite in place when present, append when absent. -/
def fsetOrAppend (o : Jx) (key : String) (w : Jx) : Jx :=
  if fhasKey o key then fset o key w else fappend o key w

/-- `delete obj[key]`. -/
def fdelete : Jx → String → Jx
  | .fcons k v rest, key =>
    if k = key then fdelete rest key else .fcons k v (fdelete rest key)
  | v, _ => v

/-- `v` is a well-formed object encoding (an `fcons` chain ended by `fnil`). -/
def isFields : Jx → Bool
  | .fnil => true
  | .fcons _ _ rest => isFields rest
  | _ => false

/-- The inner `replaceNulls` of `StoreDiscordMessagePayload`
(src/Weaviate.ts lines 224-232), applied to a field value: a `null`
field becomes `undefined`, an object-valued field is processed
recursively over all of its fields, every other value is untouched. -/
def replaceNulls : Jx → Jx
  | .jnull => .jundef
  | .fcons k v rest => .fcons k (replaceNulls v) (replaceNulls rest)
  | v => v

/-- `insertObj` of `StoreDiscordMessagePayload` before `replaceNulls`
runs (src/Weaviate.ts lines 220-222):
`insertObj = { ...params, messageID: params.id, role }` followed by
`delete insertObj.id`.  An absent `params.id` reads as `undefined`. -/
def mkInsertObj (params : Jx) (role : String) : Jx :=
  fdelete
    (fsetOrAppend
      (fsetOrAppend params "messageID" ((fget params "id").getD .jundef))
      "role" (.jstr role))
    "id"

/-- The `properties` object handed to `dataCollection.data.insert`
(src/Weaviate.ts line 235); the spread `{ ...insertObj }` copies the
fields unchanged, so as a value it equals `insertObj` after
`replaceNulls` has run. -/
def insertProperties (params : Jx) (role : String) : Jx :=
  replaceNulls (mkInsertObj params role)

/-- The argument record of `dataCollection.data.insert` at line 235:
`{ id: uuidv4(), properties: { ...insertObj } }`.  The generated uuid is
passed in explicitly. -/
structure DataInsertCall where
  id : String
  properties : Jx
deriving DecidableEq

def storeDiscordMessagePayloadInsert (params : Jx) (role : String) (uuid : String) :
    DataInsertCall :=
  ⟨uuid, insertProperties params role⟩

/-- Path lookup in a value tree: `jxPath v [k1, k2]` reads `v.k1.k2`. -/
def jxPath : Jx → List String → Option Jx
  | v, [] => some v
  | v, key :: q =>
    match fget v key with
    | some w => jxPath w q
    | none => none

/-! ## Collection naming (src/Weaviate.ts line 44) -/

inductive SourceKind where
  | history
  | discord
deriving DecidableEq

/-- The character class of the JavaScript regular expression `\s`. -/
def isJsWhitespace (c : Char) : Bool :=
  c == ' ' || c == '\t' || c == '\n' || c == '\r' ||
  c.val == 0x0b || c.val == 0x0c || c.val == 0xa0 || c.val == 0x1680 ||
  (0x2000 ≤ c.val && c.val ≤ 0x200a) ||
  c.val == 0x2028 || c.val == 0x2029 || c.val == 0x202f ||
  c.val == 0x205f || c.val == 0x3000 || c.val == 0xfeff

/-- `s.replace(/\s+/g, '')`: replacing every maximal whitespace run by the
empty string deletes exactly the whitespace characters. -/
def jsStripWhitespace (s : String) : String :=
  String.mk (s.toList.filter (fun c => !isJsWhitespace c))

/-- `this.dataCollectionName` as computed by the `WeaviateDataManager`
constructor (line 44):
`(type === 'discord' ? 'Discord_' + collection : 'History_' + collection).replace(/\s+/g, '')`. -/
def dataCollectionName (type : SourceKind) (collection : String) : String :=
  jsStripWhitespace
    (match type with
     | .discord => "Discord_" ++ collection
     | .history => "History_" ++ collection)

/-- The collection name as the specification words it: a kind-specific
marker concatenated with the logical name, with all whitespace removed. -/
def specKindMarker : SourceKind → String
  | .discord => "Discord_"
  | .history => "History_"

def specCollectionName (type : SourceKind) (collection : String) : String :=
  jsStripWhitespace (specKindMarker type ++ collection)

/-! ## The readiness wait of `getClient` (src/Weaviate.ts lines 92-97)

`readyReports n` is what `client.isReady()` would report at the n-th
check of an execution.  The source binds
`isReady = await client.isReady()` once, before the loop, and
`while (!isReady) await new Promise(r => setTimeout(r, 2000));`
never reassigns it, so the loop tests the same boolean forever.  `fuel`
bounds the number of loop iterations we are willing to unfold; a `none`
result means the loop was still running after `fuel` iterations. -/

def getClientReadyLoop : Nat → Bool → Option Unit
  | _, true => some ()
  | 0, false => none
  | fuel + 1, false => getClientReadyLoop fuel false

def getClientModel (readyReports : Nat → Bool) (fuel : Nat) : Option Unit :=
  getClientReadyLoop fuel (readyReports 0)

/-! ## The exchange dispatcher (src/Weaviate.ts lines 358-491)

The four routines of the `exchanges` table, with the remote outcomes
supplied by an `ExchangeWorld` and the store calls each routine performs
returned as a trace. -/

structure BaseHybridOptions where
  limit : Nat
  alpha : Rat
  fusionType : String
  queryProperties : Option (List String)
deriving DecidableEq

structure BaseNearTextOptions where
  limit : Nat
  certainty : Rat
deriving DecidableEq

structure GenerateOptions where
  groupedTask : Option String
deriving DecidableEq

structure DialogueEntry where
  timestamp : String
  role : String
  content : String
deriving DecidableEq

/-- A JavaScript value as the routines actually return them at runtime:
the declared type is `Promise<string>`, but the failure branch of the
completion handlers returns `parsed.detail && parsed.detail.map(...)`,
which is `undefined` or an array of rendered strings. -/
inductive JsRet where
  | str : String → JsRet
  | undef : JsRet
  | strList : List String → JsRet
deriving DecidableEq

/-- Template-literal coercion to a string, used by the semantic nearText
routine (line 471). -/
def jsTemplate : JsRet → String
  | .str s => s
  | .undef => "undefined"
  | .strList l => String.intercalate "," l

/-- Outcome of one completion HTTP call plus `response.json()`:
it throws, or resolves ok with `choices[0].message.content`, or resolves
not-ok with an optional `detail` array. -/
inductive CompletionOutcome where
  | throws : String → CompletionOutcome
  | ok : String → CompletionOutcome
  | fail : Option (List String) → CompletionOutcome
deriving DecidableEq

/-- `WeaviateMethodHandler.generateResponse` (lines 527-546): total —
every exception is caught and rendered into the returned value. -/
def generateResponseModel (co : CompletionOutcome) : JsRet :=
  match co with
  | .throws msg => .str ("An error occurred while generating response: " ++ msg)
  | .ok content => .str content
  | .fail none => .undef
  | .fail (some detail) => .strList detail

/-- One remote call performed by an exchange routine.  The persistence
calls (`addHistoryMessage`, `addHistoryMessagePair`) are the only ones
that can insert entries into the collection. -/
inductive StoreCall where
  | queryHybridCall : String → BaseHybridOptions → StoreCall
  | queryNearTextCall : String → BaseNearTextOptions → StoreCall
  | generateHybridCall : String → GenerateOptions → BaseHybridOptions → StoreCall
  | generateNearTextCall : String → GenerateOptions → BaseNearTextOptions → StoreCall
  | addHistoryMessageCall : String → String → StoreCall
  | addHistoryMessagePairCall : String → JsRet → StoreCall
deriving DecidableEq

def isPersistCall : StoreCall → Bool
  | .addHistoryMessageCall _ _ => true
  | .addHistoryMessagePairCall _ _ => true
  | _ => false

/-- Number of collection entries a call inserts (an upper bound reached
when the store accepts the writes). -/
def insertCountOf : StoreCall → Nat
  | .addHistoryMessageCall _ _ => 1
  | .addHistoryMessagePairCall _ _ => 2
  | _ => 0

/-- The state of the data manager plus the behaviour of the remote
services during one `exchange` call.  `managerPresent` models the
`!this.weaviateDataManager` guard, `collectionReady` the value of
`this.weaviateDataManager.dataCollection` after the lazy
`openCollectionChannel` attempt.  Each remote outcome either throws
(`Except.error`) or resolves.  `addHistoryTruthy` is the JavaScript
truthiness of the value `addHistoryMessage` resolves to (that method
catches internally and never throws). -/
structure ExchangeWorld where
  managerPresent : Bool
  collectionReady : Bool
  genHybridOutcome : Except String (Option String)
  genNearTextOutcome : Except String (Option String)
  queryHybridOutcome : Except String (List DialogueEntry)
  queryNearTextOutcome : Except String (List DialogueEntry)
  addHistoryTruthy : Bool
  histCompletion : CompletionOutcome

/-- `exchanges.generative.hybrid` (lines 377-403).  `result.generated`
is `null` or a string; both `null` and the empty string are falsy, so
they select the `'Error generating response'` branch without any
persistence call. -/
def generativeHybridRoutine (w : ExchangeWorld) (userQuery : String)
    (prompt : Option String) : Except String JsRet × List StoreCall :=
  let gopts : GenerateOptions := ⟨prompt⟩
  let hopts : BaseHybridOptions := ⟨0, 3 / 10, "Ranked", none⟩
  match w.genHybridOutcome with
  | .error e => (.error e, [.generateHybridCall userQuery gopts hopts])
  | .ok none => (.ok (.str "Error generating response"), [.generateHybridCall userQuery gopts hopts])
  | .ok (some s) =>
    if s = "" then
      (.ok (.str "Error generating response"), [.generateHybridCall userQuery gopts hopts])
    else
      (.ok (.str (if w.addHistoryTruthy then s else "Error adding ai response to history")),
        [.generateHybridCall userQuery gopts hopts, .addHistoryMessageCall "assistant" s])

/-- `exchanges.generative.nearText` (lines 407-427). -/
def generativeNearTextRoutine (w : ExchangeWorld) (userQuery : String)
    (prompt : Option String) : Except String JsRet × List StoreCall :=
  let gopts : GenerateOptions := ⟨prompt⟩
  let nopts : BaseNearTextOptions := ⟨0, 72 / 100⟩
  match w.genNearTextOutcome with
  | .error e => (.error e, [.generateNearTextCall userQuery gopts nopts])
  | .ok none => (.ok (.str "Error generating response"), [.generateNearTextCall userQuery gopts nopts])
  | .ok (some s) =>
    if s = "" then
      (.ok (.str "Error generating response"), [.generateNearTextCall userQuery gopts nopts])
    else
      (.ok (.str (if w.addHistoryTruthy then s else "Error adding ai response to history")),
        [.generateNearTextCall userQuery gopts nopts, .addHistoryMessageCall "assistant" s])

/-- `exchanges.semantic.hybrid` (lines 437-458): retrieval, then the
client-side completion (total), then unconditionally one
`addHistoryMessagePair(userQuery, response)` call; the raw completion
value — error text included — is the persisted assistant turn. -/
def semanticHybridRoutine (w : ExchangeWorld) (userQuery : String) :
    Except String JsRet × List StoreCall :=
  let hopts : BaseHybridOptions :=
    ⟨10, 1 / 2, "Ranked", some ["timestamp", "role", "content"]⟩
  match w.queryHybridOutcome with
  | .error e => (.error e, [.queryHybridCall userQuery hopts])
  | .ok _ =>
    let response := generateResponseModel w.histCompletion
    (.ok response,
      [.queryHybridCall userQuery hopts, .addHistoryMessagePairCall userQuery response])

/-- `exchanges.semantic.nearText` (lines 462-479): same shape, with the
completion value coerced through a template literal. -/
def semanticNearTextRoutine (w : ExchangeWorld) (userQuery : String) :
    Except String JsRet × List StoreCall :=
  let nopts : BaseNearTextOptions := ⟨10, 85 / 100⟩
  match w.queryNearTextOutcome with
  | .error e => (.error e, [.queryNearTextCall userQuery nopts])
  | .ok _ =>
    let response : JsRet := .str (jsTemplate (generateResponseModel w.histCompletion))
    (.ok response,
      [.queryNearTextCall userQuery nopts, .addHistoryMessagePairCall userQuery response])

/-- `exchanges[search] && exchanges[search][method]` (line 483): the
table lookup over arbitrary runtime keys, `none` when either property
access misses. -/
def exchangeRoutineLookup (search method : String) :
    Option (ExchangeWorld → String → Option String → Except String JsRet × List StoreCall) :=
  if search = "generative" then
    if method = "hybrid" then some (fun w q p => generativeHybridRoutine w q p)
    else if method = "nearText" then some (fun w q p => generativeNearTextRoutine w q p)
    else none
  else if search = "semantic" then
    if method = "hybrid" then some (fun w q _ => semanticHybridRoutine w q)
    else if method = "nearText" then some (fun w q _ => semanticNearTextRoutine w q)
    else none
  else none

/-- The `try`/`catch` of lines 482-490: a routine exception becomes the
string `'Error exchanging messages: ' + e`; the calls already performed
before the exception keep their effects. -/
def catchToDisplay : Except String JsRet × List StoreCall → JsRet × List StoreCall
  | (.ok v, tr) => (v, tr)
  | (.error e, tr) => (.str ("Error exchanging messages: " ++ e), tr)

/-- `WeaviateMethodHandler.exchange` (lines 358-491). -/
def exchange (search method : String) (input : String) (prompt : Option String)
    (w : ExchangeWorld) : JsRet × List StoreCall :=
  if !w.managerPresent then (.str "Error getting weaviate data manager", [])
  else if !w.collectionReady then (.str "Error getting collection collection", [])
  else
    match exchangeRoutineLookup search method with
    | some routine => catchToDisplay (routine w input prompt)
    | none => (.str "Error exchanging messages", [])

/-- The four (search, method) pairs the dispatch table covers. -/
def validStrategyPairs : List (String × String) :=
  [("generative", "hybrid"), ("generative", "nearText"),
   ("semantic", "hybrid"), ("semantic", "nearText")]

/-- The generation outcome used by the generative routine selected by
`method`. -/
def genOutcomeFor (method : String) (w : ExchangeWorld) : Except String (Option String) :=
  if method = "hybrid" then w.genHybridOutcome else w.genNearTextOutcome

/-- The retrieval outcome used by the semantic routine selected by
`method`. -/
def queryOutcomeFor (method : String) (w : ExchangeWorld) : Except String (List DialogueEntry) :=
  if method = "hybrid" then w.queryHybridOutcome else w.queryNearTextOutcome

/-- The reply value a semantic routine computes (and persists) from the
completion outcome. -/
def semanticReply (method : String) (w : ExchangeWorld) : JsRet :=
  if method = "hybrid" then generateResponseModel w.histCompletion
  else .str (jsTemplate (generateResponseModel w.histCompletion))

/-! ## `addHistoryMessagePair` (src/Weaviate.ts lines 272-293) -/

structure HistoryDataObject where
  id : String
  timestamp : String
  role : String
  content : String
deriving DecidableEq

/-- The `messageEntry` batch of lines 282-285: the user entry then the
assistant entry, sharing one timestamp. -/
def addHistoryMessagePairEntries (id1 id2 timestamp userMessage aiMessage : String) :
    List HistoryDataObject :=
  [⟨id1, timestamp, "user", userMessage⟩, ⟨id2, timestamp, "assistant", aiMessage⟩]

structure InsertManyResult where
  hasErrors : Bool
deriving DecidableEq

/-- The value `addHistoryMessagePair` resolves to, as a function of the
collection state and of the `insertMany` outcome: a null collection
throws, the catch turns every exception into `false`, and a completed
batch yields its `hasErrors` flag (line 287) — so a fully successful
batch also yields `false`.  The method never throws and never resolves
to an `Error` value. -/
def addHistoryMessagePairResult (collectionOpen : Bool)
    (batch : Except String InsertManyResult) : Bool :=
  if !collectionOpen then false
  else
    match batch with
    | .error _ => false
    | .ok r => r.hasErrors

/-! ## `discordxchange` and `discordSemanticGen` (lines 310-346, 494-516) -/

structure DiscordInput where
  content : String
  channel_id : String
deriving DecidableEq

inductive DiscordStored where
  | inbound : DiscordInput → DiscordStored
  | outbound : JsRet → DiscordStored
deriving DecidableEq

inductive DiscordCall where
  | typingIndicatorCall : String → DiscordCall
  | queryHybridCall : String → BaseHybridOptions → DiscordCall
  | discordCompletionCall : String → DiscordCall
  | sendMessageCall : String → String → DiscordCall
  | storeDiscordMessagePayloadCall : String → DiscordStored → DiscordCall
deriving DecidableEq

def isDiscordStoreCall : DiscordCall → Bool
  | .storeDiscordMessagePayloadCall _ _ => true
  | _ => false

/-- Remote behaviour during one `discordxchange` call.  `typingIndicator`
and `collection.query.hybrid` are awaited outside any `try`, so their
exceptions escape; `DiscordCompletion`/`sendMessage` sit inside the
`try` of `discordSemanticGen`. -/
structure DiscordWorld where
  managerPresent : Bool
  collectionReady : Bool
  typingOutcome : Except String Unit
  queryHybridOutcome : Except String (List JsRet)
  completion : CompletionOutcome
  sendOutcome : Except String JsRet

/-- `discordSemanticGen` (lines 494-516): total — its `try` catches the
completion call, the JSON parse and the `sendMessage` call alike. -/
def discordSemanticGenModel (w : DiscordWorld) (userQuery channelId : String) :
    JsRet × List DiscordCall :=
  match w.completion with
  | .throws msg =>
    (.str ("An error occurred while generating response: " ++ msg),
      [.discordCompletionCall userQuery])
  | .ok content =>
    match w.sendOutcome with
    | .ok v => (v, [.discordCompletionCall userQuery, .sendMessageCall channelId content])
    | .error e =>
      (.str ("An error occurred while generating response: " ++ e),
        [.discordCompletionCall userQuery, .sendMessageCall channelId content])
  | .fail none => (.undef, [.discordCompletionCall userQuery])
  | .fail (some detail) => (.strList detail, [.discordCompletionCall userQuery])

/-- `discordxchange` (lines 310-346).  After the reply is computed, both
payloads are stored unconditionally: the inbound input under role
`"user"`, the reply value under role `"assistant"`. -/
def discordxchange (w : DiscordWorld) (input : DiscordInput) :
    Except String JsRet × List DiscordCall :=
  if !w.managerPresent then (.ok (.str "Error getting weaviate data manager"), [])
  else if !w.collectionReady then (.ok (.str "Error getting collection collection"), [])
  else
    let hopts : BaseHybridOptions := ⟨10, 1 / 2, "Ranked", none⟩
    match w.typingOutcome with
    | .error e => (.error e, [.typingIndicatorCall input.channel_id])
    | .ok _ =>
      match w.queryHybridOutcome with
      | .error e =>
        (.error e, [.typingIndicatorCall input.channel_id, .queryHybridCall input.content hopts])
      | .ok _ =>
        let gen := discordSemanticGenModel w input.content input.channel_id
        (.ok gen.1,
          [.typingIndicatorCall input.channel_id, .queryHybridCall input.content hopts]
            ++ gen.2
            ++ [.storeDiscordMessagePayloadCall "user" (.inbound input),
                .storeDiscordMessagePayloadCall "assistant" (.outbound gen.1)])

/-! ## Heap model of `StoreDiscordMessagePayload`

The value model above cannot express the aliasing consequence of the
shallow copy `{ ...params }`: the copy shares its object-valued fields
with the caller's `params`, so the in-place `replaceNulls` mutates the
caller's nested objects.  Here objects live on an explicit heap:
an address maps to a field list whose values are primitives, `null`,
`undefined`, or references to other addresses. -/

inductive HVal where
  | vnull : HVal
  | vundef : HVal
  | vstr : String → HVal
  | vnum : Int → HVal
  | vref : Nat → HVal
deriving DecidableEq

abbrev HObj := List (String × HVal)
abbrev Heap := List (Nat × HObj)

def lookupA : Heap → Nat → Option HObj
  | [], _ => none
  | (b, o) :: t, a => if b = a then some o else lookupA t a

def objGet : HObj → String → Option HVal
  | [], _ => none
  | (k, v) :: t, key => if k = key then some v else objGet t key

def fieldVal (h : Heap) (a : Nat) (key : String) : Option HVal :=
  (lookupA h a).bind (fun o => objGet o key)

def objSet : HObj → String → HVal → HObj
  | [], _, _ => []
  | (k, v) :: t, key, w =>
    if k = key then (key, w) :: objSet t key w else (k, v) :: objSet t key w

def heapSet : Heap → Nat → HObj → Heap
  | [], _, _ => []
  | (b, ob) :: t, a, o =>
    if b = a then (a, o) :: heapSet t a o else (b, ob) :: heapSet t a o

/-- `obj[key] = w` for the object at address `a` (no-op on a missing
address). -/
def setFieldH (h : Heap) (a : Nat) (key : String) (w : HVal) : Heap :=
  match lookupA h a with
  | none => h
  | some o => heapSet h a (objSet o key w)

/-- The recursive walk of `replaceNulls` (lines 224-233) on the heap.
`Object.keys(obj)` is snapshotted when an object is entered; each field
is then read from the current heap: a `null` field is overwritten with
`undefined` in place, a reference field is entered recursively.  `fuel`
bounds the nesting depth that can be processed; `none` means it ran
out (the JavaScript original would still be recursing). -/
def rnGo : Nat → Heap → Nat → List String → Option Heap
  | 0, _, _, _ => none
  | _ + 1, h, _, [] => some h
  | n + 1, h, a, key :: ks =>
    match fieldVal h a key with
    | some .vnull => rnGo n (setFieldH h a key .vundef) a ks
    | some (.vref b) =>
      match lookupA h b with
      | none => rnGo n h a ks
      | some o =>
        match rnGo n h b (o.map Prod.fst) with
        | none => none
        | some h2 => rnGo n h2 a ks
    | _ => rnGo n h a ks

def replaceNullsHeap (fuel : Nat) (h : Heap) (a : Nat) : Option Heap :=
  match lookupA h a with
  | none => some h
  | some o => rnGo fuel h a (o.map Prod.fst)

def objHasKey (o : HObj) (key : String) : Bool := (objGet o key).isSome

def objSetOrAppend (o : HObj) (key : String) (w : HVal) : HObj :=
  if objHasKey o key then objSet o key w else o ++ [(key, w)]

def objDelete : HObj → String → HObj
  | [], _ => []
  | (k, v) :: t, key =>
    if k = key then objDelete t key else (k, v) :: objDelete t key

/-- The field list of `insertObj`: the shallow copy of the caller's
fields (object values copied as references), `messageID` set to
`params.id`, `role` set to the role argument, and `id` deleted. -/
def mkInsertFieldsHeap (po : HObj) (roleVal : HVal) : HObj :=
  objDelete
    (objSetOrAppend (objSetOrAppend po "messageID" ((objGet po "id").getD .vundef))
      "role" roleVal)
    "id"

/-- The heap effect of `StoreDiscordMessagePayload(role, params)` up to
the insert call: allocate the shallow copy at the fresh address
`freshAddr`, then run `replaceNulls` on it in place. -/
def storePayloadHeap (fuel : Nat) (h : Heap) (paramsAddr freshAddr : Nat)
    (roleVal : HVal) : Option Heap :=
  match lookupA h paramsAddr with
  | none => none
  | some po => replaceNullsHeap fuel ((freshAddr, mkInsertFieldsHeap po roleVal) :: h) freshAddr

/-- Path lookup through the heap: `pathVal h a [k1, k2]` reads
`(heap object at a).k1.k2`; the empty path denotes the object itself. -/
def pathVal : Heap → Nat → List String → Option HVal
  | _, a, [] => some (.vref a)
  | h, a, key :: ks =>
    match fieldVal h a key with
    | some (.vref b) => pathVal h b ks
    | v =>
      match ks with
      | [] => v
      | _ :: _ => none

/-- The only writes `replaceNulls` performs turn a `null` field into
`undefined`; every other field of every object is left as it was. -/
def HeapStep (h h2 : Heap) : Prop :=
  ∀ a key, fieldVal h2 a key = fieldVal h a key ∨
    (fieldVal h a key = some .vnull ∧ fieldVal h2 a key = some .vundef)

/-- No field anywhere in the heap holds a reference to address `p`. -/
def NoRefTo (h : Heap) (p : Nat) : Prop :=
  ∀ e ∈ h, ∀ kv ∈ e.2, kv.2 ≠ HVal.vref p

end WeaviateHandler

namespace WeaviateHandler

/-- C7: the collection name is a pure deterministic function of the source
kind and the logical name — the kind-specific marker (`Discord_` or
`History_`) concatenated with the logical name, with all whitespace
removed — and in particular kind `history` with logical name
`"Test Room"` yields `"History_TestRoom"`. -/
theorem claim_C7_collection_naming :
    (∀ (t : SourceKind) (c : String), dataCollectionName t c = specCollectionName t c)
    ∧ dataCollectionName .history "Test Room" = "History_TestRoom" := by
  constructor
  · intro t c
    cases t <;> rfl
  · rfl

/-- The readiness loop never terminates once entered with a false flag:
its condition variable is never reassigned. -/
theorem getClientReadyLoop_false (fuel : Nat) : getClientReadyLoop fuel false = none := by
  induction fuel with
  | zero => rfl
  | succ n ih => simpa [getClientReadyLoop] using ih

/-- C1 (code bug): the claim says `getClient` re-checks the remote's
readiness on each iteration of its 2-second polling loop and terminates
once a later poll reports ready.  The source binds
`isReady = await client.isReady()` once, before the loop, and the loop
body never re-queries it — so for every execution whose first readiness
check is `false`, the loop runs forever no matter what the remote
reports later: the modelled `getClient` has not returned after any
number of iterations.  The claim (and the spec's intended liveness
wait) is right and the code is wrong. -/
theorem claim_C1_getClient_never_repolls (readyReports : Nat → Bool) (fuel : Nat)
    (hfirst : readyReports 0 = false) :
    getClientModel readyReports fuel = none := by
  unfold getClientModel
  rw [hfirst]
  exact getClientReadyLoop_false fuel

theorem claim_C1_witness :
    (fun n => decide (0 < n)) 0 = false ∧ (fun n => decide (0 < n)) 1 = true ∧
      getClientModel (fun n => decide (0 < n)) 7 = none :=
  ⟨rfl, rfl, claim_C1_getClient_never_repolls (fun n => decide (0 < n)) 7 rfl⟩

/-- C9: `addHistoryMessagePair` never throws and never resolves to an
`Error` value (its model is a total `Bool`-valued function): a null
collection yields `false`, a thrown batch write yields `false`, and a
fully successful batch (`hasErrors = false`) also yields `false`, so a
`false` result does not distinguish total failure from complete
success. -/
theorem claim_C9_pair_swallows_failures :
    (∀ batch : Except String InsertManyResult, addHistoryMessagePairResult false batch = false)
    ∧ (∀ e : String, addHistoryMessagePairResult true (.error e) = false)
    ∧ addHistoryMessagePairResult true (.ok ⟨false⟩) = false
    ∧ (∀ e : String,
        addHistoryMessagePairResult true (.error e) = addHistoryMessagePairResult true (.ok ⟨false⟩)) := by
  refine ⟨fun batch => rfl, fun e => rfl, rfl, fun e => rfl⟩

/-- C2: for every exchange in a generative mode (`hybrid` or `nearText`)
on an open collection, if the server-side generation returns a null or
empty generated text then the call returns the fixed string
`'Error generating response'`, performs no persistence call
(`addHistoryMessage` is not invoked), and inserts zero entries, leaving
the collection's entry count unchanged. -/
theorem claim_C2_generative_null_generation (method : String) (w : ExchangeWorld)
    (q : String) (prompt : Option String)
    (hm : method = "hybrid" ∨ method = "nearText")
    (hmgr : w.managerPresent = true) (hcol : w.collectionReady = true)
    (hgen : genOutcomeFor method w = .ok none ∨ genOutcomeFor method w = .ok (some "")) :
    (exchange "generative" method q prompt w).1 = .str "Error generating response"
    ∧ (exchange "generative" method q prompt w).2.filter isPersistCall = []
    ∧ ((exchange "generative" method q prompt w).2.map insertCountOf).sum = 0 := by
  rcases hm with hm | hm <;> subst hm <;>
    simp [genOutcomeFor] at hgen <;>
    rcases hgen with hg | hg <;>
      simp [exchange, exchangeRoutineLookup, generativeHybridRoutine, generativeNearTextRoutine,
        catchToDisplay, hmgr, hcol, hg, isPersistCall, insertCountOf]

theorem claim_C2_witness :
    (exchange "generative" "hybrid" "hello" (some "task")
        ⟨true, true, .ok none, .ok none, .ok [], .ok [], true, .ok "x"⟩).1
        = .str "Error generating response"
    ∧ (exchange "generative" "hybrid" "hello" (some "task")
        ⟨true, true, .ok none, .ok none, .ok [], .ok [], true, .ok "x"⟩).2.filter isPersistCall = []
    ∧ ((exchange "generative" "hybrid" "hello" (some "task")
        ⟨true, true, .ok none, .ok none, .ok [], .ok [], true, .ok "x"⟩).2.map insertCountOf).sum = 0 :=
  claim_C2_generative_null_generation "hybrid"
    ⟨true, true, .ok none, .ok none, .ok [], .ok [], true, .ok "x"⟩
    "hello" (some "task") (Or.inl rfl) rfl rfl (Or.inl rfl)

/-- C3: for every exchange in a semantic mode (`hybrid` or `nearText`)
on an open collection whose retrieval succeeds, exactly one
`addHistoryMessagePair(userQuery, reply)` call is performed — whatever
the completion outcome, completion-failure text included — the reply
returned is the value persisted, and the pair batch is the user entry
followed by the assistant entry. -/
theorem claim_C3_semantic_persists_one_pair (method : String) (w : ExchangeWorld)
    (q : String) (prompt : Option String) (objs : List DialogueEntry)
    (hm : method = "hybrid" ∨ method = "nearText")
    (hmgr : w.managerPresent = true) (hcol : w.collectionReady = true)
    (hq : queryOutcomeFor method w = .ok objs) :
    (exchange "semantic" method q prompt w).2.filter isPersistCall
      = [.addHistoryMessagePairCall q (semanticReply method w)]
    ∧ (exchange "semantic" method q prompt w).1 = semanticReply method w
    ∧ (∀ id1 id2 ts u a,
        (addHistoryMessagePairEntries id1 id2 ts u a).map HistoryDataObject.role
          = ["user", "assistant"]) := by
  rcases hm with hm | hm <;> subst hm <;>
    simp [queryOutcomeFor] at hq <;>
    simp [exchange, exchangeRoutineLookup, semanticHybridRoutine, semanticNearTextRoutine,
      catchToDisplay, hmgr, hcol, hq, isPersistCall, semanticReply,
      addHistoryMessagePairEntries]

theorem claim_C3_witness :
    (exchange "semantic" "hybrid" "hello" none
        ⟨true, true, .ok none, .ok none, .ok [], .ok [], true, .throws "boom"⟩).2.filter isPersistCall
      = [.addHistoryMessagePairCall "hello"
          (.str "An error occurred while generating response: boom")]
    ∧ (exchange "semantic" "hybrid" "hello" none
        ⟨true, true, .ok none, .ok none, .ok [], .ok [], true, .throws "boom"⟩).1
      = .str "An error occurred while generating response: boom" :=
  ⟨(claim_C3_semantic_persists_one_pair "hybrid"
      ⟨true, true, .ok none, .ok none, .ok [], .ok [], true, .throws "boom"⟩
      "hello" none [] (Or.inl rfl) rfl rfl rfl).1,
   (claim_C3_semantic_persists_one_pair "hybrid"
      ⟨true, true, .ok none, .ok none, .ok [], .ok [], true, .throws "boom"⟩
      "hello" none [] (Or.inl rfl) rfl rfl rfl).2.1⟩

/-- The dispatch-table lookup misses exactly outside the four
(search, method) pairs of the 2-by-2 matrix. -/
theorem exchangeRoutineLookup_none_iff (search method : String) :
    exchangeRoutineLookup search method = none ↔ (search, method) ∉ validStrategyPairs := by
  unfold exchangeRoutineLookup validStrategyPairs
  by_cases hs : search = "generative" <;> by_cases hm : method = "hybrid" <;>
    by_cases hn : method = "nearText" <;> by_cases ht : search = "semantic" <;>
    simp_all

/-- C4 counterexample: the claim as stated promises the fixed
dispatch-error string `'Error exchanging messages'` for every pair
outside the matrix, but when the collection channel is not open the
invalid pair `("semantic", "bogus")` returns
`'Error getting collection collection'` instead — the collection guard
precedes the dispatch. -/
theorem claim_C4_counterexample :
    ("semantic", "bogus") ∉ validStrategyPairs
    ∧ exchange "semantic" "bogus" "q" none
        ⟨true, false, .ok none, .ok none, .ok [], .ok [], true, .ok "x"⟩
      = (.str "Error getting collection collection", [])
    ∧ JsRet.str "Error getting collection collection" ≠ .str "Error exchanging messages" := by
  refine ⟨by decide, rfl, by decide⟩

/-- C4 (amended): when the data manager is present and the collection
channel is open, each of the 4 pairs of
{generative, semantic} by {hybrid, nearText} dispatches to its routine
through the catch wrapper (so `exchange` returns a value and never lets
an exception escape), and every other pair returns the fixed
dispatch-error string `'Error exchanging messages'` with no retrieval,
generation, or persistence call performed. -/
theorem claim_C4_dispatch_table (search method q : String) (prompt : Option String)
    (w : ExchangeWorld)
    (hmgr : w.managerPresent = true) (hcol : w.collectionReady = true) :
    ((search, method) ∈ validStrategyPairs →
      ∃ r, exchangeRoutineLookup search method = some r
        ∧ exchange search method q prompt w = catchToDisplay (r w q prompt))
    ∧ ((search, method) ∉ validStrategyPairs →
        exchange search method q prompt w = (.str "Error exchanging messages", [])) := by
  constructor
  · intro hmem
    cases hl : exchangeRoutineLookup search method with
    | none => exact absurd ((exchangeRoutineLookup_none_iff search method).mp hl) (by simp [hmem])
    | some r =>
      exact ⟨r, rfl, by simp [exchange, hmgr, hcol, hl]⟩
  · intro hmem
    have hl : exchangeRoutineLookup search method = none :=
      (exchangeRoutineLookup_none_iff search method).mpr hmem
    simp [exchange, hmgr, hcol, hl]

theorem claim_C4_witness :
    exchange "semantic" "near" "q" none
        ⟨true, true, .ok none, .ok none, .ok [], .ok [], true, .ok "x"⟩
      = (.str "Error exchanging messages", []) :=
  (claim_C4_dispatch_table "semantic" "near" "q" none
      ⟨true, true, .ok none, .ok none, .ok [], .ok [], true, .ok "x"⟩ rfl rfl).2 (by decide)

/-- `discordSemanticGen` performs no persistence call itself, in any
completion or send outcome. -/
theorem discordSemanticGen_no_store (w : DiscordWorld) (q c : String) :
    (discordSemanticGenModel w q c).2.filter isDiscordStoreCall = [] := by
  unfold discordSemanticGenModel
  rcases w.completion with msg | content | detail
  · rfl
  · rcases hs : w.sendOutcome with e | v <;> simp [isDiscordStoreCall]
  · rcases detail with _ | l <;> rfl

/-- C8: for every `discordxchange` call on an open collection whose
typing-indicator and retrieval steps succeed, both the inbound payload
(role `"user"`) and the outbound reply (role `"assistant"`) are
persisted as structured entries, in that order — and since the world is
universally quantified this holds whether the transport send step
succeeded or threw (the witness instantiates a failing send). -/
theorem claim_C8_discord_persists_both (w : DiscordWorld) (input : DiscordInput)
    (objs : List JsRet)
    (hmgr : w.managerPresent = true) (hcol : w.collectionReady = true)
    (htyp : w.typingOutcome = .ok ()) (hq : w.queryHybridOutcome = .ok objs) :
    (discordxchange w input).1
      = .ok (discordSemanticGenModel w input.content input.channel_id).1
    ∧ (discordxchange w input).2.filter isDiscordStoreCall
      = [.storeDiscordMessagePayloadCall "user" (.inbound input),
         .storeDiscordMessagePayloadCall "assistant"
           (.outbound (discordSemanticGenModel w input.content input.channel_id).1)] := by
  constructor <;>
    simp [discordxchange, hmgr, hcol, htyp, hq, List.filter_append,
      discordSemanticGen_no_store, isDiscordStoreCall]

theorem claim_C8_witness :
    (discordxchange
        ⟨true, true, .ok (), .ok [], .ok "hi there", .error "send failed"⟩
        ⟨"what is up", "chan1"⟩).2.filter isDiscordStoreCall
      = [.storeDiscordMessagePayloadCall "user" (.inbound ⟨"what is up", "chan1"⟩),
         .storeDiscordMessagePayloadCall "assistant"
           (.outbound (.str "An error occurred while generating response: send failed"))] :=
  (claim_C8_discord_persists_both
      ⟨true, true, .ok (), .ok [], .ok "hi there", .error "send failed"⟩
      ⟨"what is up", "chan1"⟩ [] rfl rfl rfl rfl).2

end WeaviateHandler

namespace WeaviateHandler

/-- `replaceNulls` rewrites each field value pointwise. -/
theorem fget_replaceNulls (v : Jx) (key : String) :
    fget (replaceNulls v) key = (fget v key).map replaceNulls := by
  induction v with
  | fcons k w rest ihw ihrest =>
    by_cases hk : k = key <;> simp [replaceNulls, fget, hk, ihrest]
  | jnull => rfl
  | jundef => rfl
  | jstr s => rfl
  | jnum n => rfl
  | jbool b => rfl
  | fnil => rfl

/-- After `replaceNulls`, no path of the result holds `null`. -/
theorem jxPath_replaceNulls_ne_null :
    ∀ (pth : List String) (v : Jx), jxPath (replaceNulls v) pth ≠ some .jnull := by
  intro pth
  induction pth with
  | nil =>
    intro v h
    simp only [jxPath, Option.some.injEq] at h
    cases v <;> simp [replaceNulls] at h
  | cons key q ih =>
    intro v h
    simp only [jxPath, fget_replaceNulls] at h
    cases hf : fget v key with
    | none => rw [hf] at h; exact Option.noConfusion h
    | some w => rw [hf] at h; exact ih w h

/-- A path that held `null` holds `undefined` after `replaceNulls`. -/
theorem jxPath_replaceNulls_null :
    ∀ (pth : List String) (v : Jx), jxPath v pth = some .jnull →
      jxPath (replaceNulls v) pth = some .jundef := by
  intro pth
  induction pth with
  | nil =>
    intro v h
    simp only [jxPath, Option.some.injEq] at h
    subst h
    rfl
  | cons key q ih =>
    intro v h
    simp only [jxPath] at h ⊢
    rw [fget_replaceNulls]
    cases hf : fget v key with
    | none => rw [hf] at h; exact Option.noConfusion h
    | some w =>
      rw [hf] at h
      simpa using ih w h

theorem fget_fdelete_ne {key dkey : String} (hne : key ≠ dkey) (v : Jx) :
    fget (fdelete v dkey) key = fget v key := by
  induction v with
  | fcons k w rest ihw ihrest =>
    by_cases hk : k = dkey
    · have hky : ¬k = key := fun h => hne (h ▸ hk)
      simp [fdelete, fget, hk, hky, ihrest, hne, Ne.symm hne]
    · by_cases hky : k = key <;> simp [fdelete, fget, hk, hky, ihrest, hne, Ne.symm hne]
  | jnull => rfl
  | jundef => rfl
  | jstr s => rfl
  | jnum n => rfl
  | jbool b => rfl
  | fnil => rfl

theorem fget_fdelete_self (v : Jx) (key : String) :
    fget (fdelete v key) key = none := by
  induction v with
  | fcons k w rest ihw ihrest =>
    by_cases hk : k = key <;> simp [fdelete, fget, hk, ihrest]
  | jnull => rfl
  | jundef => rfl
  | jstr s => rfl
  | jnum n => rfl
  | jbool b => rfl
  | fnil => rfl

theorem fget_fset_ne {key skey : String} (hne : key ≠ skey) (v : Jx) (w : Jx) :
    fget (fset v skey w) key = fget v key := by
  induction v with
  | fcons k v0 rest ihv ihrest =>
    by_cases hk : k = skey
    · have hky : ¬k = key := fun h => hne (h ▸ hk)
      simp [fset, fget, hk, hky, ihrest, hne, Ne.symm hne]
    · by_cases hky : k = key <;> simp [fset, fget, hk, hky, ihrest, hne, Ne.symm hne]
  | jnull => rfl
  | jundef => rfl
  | jstr s => rfl
  | jnum n => rfl
  | jbool b => rfl
  | fnil => rfl

theorem fget_fappend_ne {key akey : String} (hne : key ≠ akey) (v : Jx) (w : Jx) :
    fget (fappend v akey w) key = fget v key := by
  induction v with
  | fcons k v0 rest ihv ihrest =>
    by_cases hky : k = key <;> simp [fappend, fget, hky, ihrest]
  | fnil =>
    have : ¬akey = key := fun h => hne h.symm
    simp [fappend, fget, this]
  | jnull => rfl
  | jundef => rfl
  | jstr s => rfl
  | jnum n => rfl
  | jbool b => rfl

theorem fget_fsetOrAppend_ne {key skey : String} (hne : key ≠ skey) (o : Jx) (w : Jx) :
    fget (fsetOrAppend o skey w) key = fget o key := by
  unfold fsetOrAppend
  split
  · exact fget_fset_ne hne o w
  · exact fget_fappend_ne hne o w

theorem fget_fset_self {v : Jx} {skey : String} (hs : (fget v skey).isSome) (w : Jx) :
    fget (fset v skey w) skey = some w := by
  induction v with
  | fcons k v0 rest ihv ihrest =>
    by_cases hk : k = skey
    · simp [fset, fget, hk]
    · simp only [fget, hk, if_neg, ite_false] at hs
      simp [fset, fget, hk, ihrest hs]
  | jnull => simp [fget] at hs
  | jundef => simp [fget] at hs
  | jstr s => simp [fget] at hs
  | jnum n => simp [fget] at hs
  | jbool b => simp [fget] at hs
  | fnil => simp [fget] at hs

theorem fget_fappend_self {v : Jx} {key : String} (hf : isFields v = true)
    (habs : fget v key = none) (w : Jx) :
    fget (fappend v key w) key = some w := by
  induction v with
  | fcons k v0 rest ihv ihrest =>
    by_cases hk : k = key
    · simp [fget, hk] at habs
    · simp only [fget, hk, ite_false] at habs
      simp only [isFields] at hf
      simp [fappend, fget, hk, ihrest hf habs]
  | fnil => simp [fappend, fget]
  | jnull => simp [isFields] at hf
  | jundef => simp [isFields] at hf
  | jstr s => simp [isFields] at hf
  | jnum n => simp [isFields] at hf
  | jbool b => simp [isFields] at hf

theorem fget_fsetOrAppend_self {o : Jx} (hf : isFields o = true) (key : String) (w : Jx) :
    fget (fsetOrAppend o key w) key = some w := by
  unfold fsetOrAppend
  by_cases h : fhasKey o key
  · rw [if_pos h]
    exact fget_fset_self h w
  · rw [if_neg h]
    have habs : fget o key = none := by
      unfold fhasKey at h
      exact Option.not_isSome_iff_eq_none.mp (by simpa using h)
    exact fget_fappend_self hf habs w

theorem isFields_fset (v : Jx) (skey : String) (w : Jx) :
    isFields (fset v skey w) = isFields v := by
  induction v with
  | fcons k v0 rest ihv ihrest =>
    by_cases hk : k = skey <;> simp [fset, isFields, hk, ihrest]
  | jnull => rfl
  | jundef => rfl
  | jstr s => rfl
  | jnum n => rfl
  | jbool b => rfl
  | fnil => rfl

theorem isFields_fappend {v : Jx} (hf : isFields v = true) (key : String) (w : Jx) :
    isFields (fappend v key w) = true := by
  induction v with
  | fcons k v0 rest ihv ihrest =>
    simp only [isFields] at hf
    simp [fappend, isFields, ihrest hf]
  | fnil => rfl
  | jnull => simp [isFields] at hf
  | jundef => simp [isFields] at hf
  | jstr s => simp [isFields] at hf
  | jnum n => simp [isFields] at hf
  | jbool b => simp [isFields] at hf

theorem isFields_fsetOrAppend {o : Jx} (hf : isFields o = true) (key : String) (w : Jx) :
    isFields (fsetOrAppend o key w) = true := by
  unfold fsetOrAppend
  split
  · rw [isFields_fset]; exact hf
  · exact isFields_fappend hf key w

/-- C5: the null-to-absent normalization of `appendStructured` is
applied recursively at every nesting depth: no path of the properties
object handed to the store's insert call holds `null`, and every field
of the payload that held `null` at any depth (reached through a
top-level key other than the remapped `id`, `messageID`, `role` keys)
is `undefined` — i.e. absent at the store's write boundary, which drops
undefined members — in the inserted object. -/
theorem claim_C5_null_to_absent (params : Jx) (role : String) (pth : List String) :
    jxPath (insertProperties params role) pth ≠ some .jnull
    ∧ (∀ key q, pth = key :: q → key ≠ "id" → key ≠ "messageID" → key ≠ "role" →
        jxPath params pth = some .jnull →
        jxPath (insertProperties params role) pth = some .jundef) := by
  constructor
  · exact jxPath_replaceNulls_ne_null pth (mkInsertObj params role)
  · rintro key q rfl hid hmid hrole hnull
    have hfk : fget (mkInsertObj params role) key = fget params key := by
      unfold mkInsertObj
      rw [fget_fdelete_ne hid, fget_fsetOrAppend_ne hrole, fget_fsetOrAppend_ne hmid]
    rw [insertProperties]
    simp only [jxPath] at hnull ⊢
    rw [fget_replaceNulls, hfk]
    cases hf : fget params key with
    | none => rw [hf] at hnull; exact Option.noConfusion hnull
    | some w =>
      rw [hf] at hnull
      simpa using jxPath_replaceNulls_null q w hnull

theorem claim_C5_witness :
    jxPath (insertProperties (.fcons "a" (.fcons "b" .jnull .fnil) .fnil) "user") ["a", "b"]
      = some .jundef :=
  (claim_C5_null_to_absent (.fcons "a" (.fcons "b" .jnull .fnil) .fnil) "user" ["a", "b"]).2
    "a" ["b"] rfl (by decide) (by decide) (by decide) rfl

/-- C6: for every payload with an externally supplied field
`id = X`, the stored properties do not contain `id` (the value is
remapped to `messageID`), and the entry is inserted under the freshly
generated uuid — which is not `X` whenever the generated uuid differs
from it. -/
theorem claim_C6_id_discarded (params : Jx) (role X uuid : String)
    (hobj : isFields params = true)
    (hid : fget params "id" = some (.jstr X)) :
    fget (storeDiscordMessagePayloadInsert params role uuid).properties "id" = none
    ∧ fget (storeDiscordMessagePayloadInsert params role uuid).properties "messageID"
        = some (.jstr X)
    ∧ (storeDiscordMessagePayloadInsert params role uuid).id = uuid
    ∧ (uuid ≠ X → (storeDiscordMessagePayloadInsert params role uuid).id ≠ X) := by
  refine ⟨?_, ?_, rfl, fun h => h⟩
  · show fget (insertProperties params role) "id" = none
    rw [insertProperties, fget_replaceNulls, mkInsertObj, fget_fdelete_self]
    rfl
  · show fget (insertProperties params role) "messageID" = some (.jstr X)
    rw [insertProperties, fget_replaceNulls, mkInsertObj,
      fget_fdelete_ne (by decide), fget_fsetOrAppend_ne (by decide),
      fget_fsetOrAppend_self hobj, hid]
    rfl

theorem claim_C6_witness :
    fget (storeDiscordMessagePayloadInsert
        (.fcons "id" (.jstr "X123") (.fcons "content" (.jstr "hi") .fnil)) "user" "u-1").properties
        "id" = none
    ∧ fget (storeDiscordMessagePayloadInsert
        (.fcons "id" (.jstr "X123") (.fcons "content" (.jstr "hi") .fnil)) "user" "u-1").properties
        "messageID" = some (.jstr "X123")
    ∧ (storeDiscordMessagePayloadInsert
        (.fcons "id" (.jstr "X123") (.fcons "content" (.jstr "hi") .fnil)) "user" "u-1").id
        = "u-1" :=
  ⟨(claim_C6_id_discarded
      (.fcons "id" (.jstr "X123") (.fcons "content" (.jstr "hi") .fnil)) "user" "X123" "u-1"
      rfl rfl).1,
   (claim_C6_id_discarded
      (.fcons "id" (.jstr "X123") (.fcons "content" (.jstr "hi") .fnil)) "user" "X123" "u-1"
      rfl rfl).2.1,
   (claim_C6_id_discarded
      (.fcons "id" (.jstr "X123") (.fcons "content" (.jstr "hi") .fnil)) "user" "X123" "u-1"
      rfl rfl).2.2.1⟩

end WeaviateHandler

namespace WeaviateHandler

theorem lookupA_mem : ∀ (h : Heap) (a : Nat) (o : HObj), lookupA h a = some o → (a, o) ∈ h := by
  intro h
  induction h with
  | nil => intro a o hl; exact Option.noConfusion hl
  | cons e t ih =>
    intro a o hl
    obtain ⟨b, ob⟩ := e
    by_cases hb : b = a
    · subst hb
      simp only [lookupA, if_pos] at hl
      rw [Option.some_inj] at hl
      subst hl
      exact List.mem_cons_self _ _
    · simp only [lookupA, if_neg hb] at hl
      exact List.mem_cons_of_mem _ (ih a o hl)

theorem objGet_mem : ∀ (o : HObj) (key : String) (v : HVal), objGet o key = some v → (key, v) ∈ o := by
  intro o
  induction o with
  | nil => intro key v hg; exact Option.noConfusion hg
  | cons kv t ih =>
    intro key v hg
    obtain ⟨k, w⟩ := kv
    by_cases hk : k = key
    · subst hk
      simp only [objGet, if_pos] at hg
      rw [Option.some_inj] at hg
      subst hg
      exact List.mem_cons_self _ _
    · simp only [objGet, if_neg hk] at hg
      exact List.mem_cons_of_mem _ (ih key v hg)

theorem fieldVal_eq_some {h : Heap} {a : Nat} {key : String} {v : HVal}
    (hv : fieldVal h a key = some v) :
    ∃ o, lookupA h a = some o ∧ objGet o key = some v := by
  unfold fieldVal at hv
  cases hl : lookupA h a with
  | none => rw [hl] at hv; exact Option.noConfusion hv
  | some o => rw [hl] at hv; exact ⟨o, rfl, hv⟩

theorem lookupA_heapSet_self (h : Heap) (a : Nat) (o : HObj) :
    lookupA (heapSet h a o) a = (lookupA h a).map (fun _ => o) := by
  induction h with
  | nil => rfl
  | cons e t ih =>
    obtain ⟨c, oc⟩ := e
    by_cases hc : c = a <;> simp [heapSet, lookupA, hc, ih]

theorem lookupA_heapSet_ne {b a : Nat} (hne : b ≠ a) (h : Heap) (o : HObj) :
    lookupA (heapSet h a o) b = lookupA h b := by
  induction h with
  | nil => rfl
  | cons e t ih =>
    obtain ⟨c, oc⟩ := e
    by_cases hc : c = a
    · subst hc
      simp [heapSet, lookupA, ih, Ne.symm hne]
    · by_cases hcb : c = b <;> simp [heapSet, lookupA, hc, hcb, ih, hne]

theorem objGet_objSet_self (o : HObj) (key : String) (w : HVal) :
    objGet (objSet o key w) key = (objGet o key).map (fun _ => w) := by
  induction o with
  | nil => rfl
  | cons kv t ih =>
    obtain ⟨k, v⟩ := kv
    by_cases hk : k = key <;> simp [objSet, objGet, hk, ih]

theorem objGet_objSet_ne {key2 key : String} (hne : key2 ≠ key) (o : HObj) (w : HVal) :
    objGet (objSet o key w) key2 = objGet o key2 := by
  induction o with
  | nil => rfl
  | cons kv t ih =>
    obtain ⟨k, v⟩ := kv
    by_cases hk : k = key
    · subst hk
      simp [objSet, objGet, ih, Ne.symm hne]
    · by_cases hk2 : k = key2 <;> simp [objSet, objGet, hk, hk2, ih, hne]

theorem fieldVal_setFieldH_self {h : Heap} {a : Nat} {key : String}
    (hs : (fieldVal h a key).isSome) (w : HVal) :
    fieldVal (setFieldH h a key w) a key = some w := by
  unfold setFieldH
  cases hl : lookupA h a with
  | none => rw [fieldVal, hl] at hs; exact absurd hs (by simp)
  | some o =>
    rw [fieldVal, hl] at hs
    unfold fieldVal
    rw [lookupA_heapSet_self, hl]
    simp only [Option.map_some', Option.some_bind] at hs ⊢
    rw [objGet_objSet_self]
    obtain ⟨v, hv⟩ := Option.isSome_iff_exists.mp hs
    rw [hv]
    rfl

theorem fieldVal_setFieldH_other {h : Heap} {a : Nat} {key : String} {b : Nat} {key2 : String}
    (hor : b ≠ a ∨ key2 ≠ key) (w : HVal) :
    fieldVal (setFieldH h a key w) b key2 = fieldVal h b key2 := by
  unfold setFieldH
  cases hl : lookupA h a with
  | none => rfl
  | some o =>
    unfold fieldVal
    rcases hor with hb | hk
    · rw [lookupA_heapSet_ne hb]
    · by_cases hb : b = a
      · subst hb
        rw [lookupA_heapSet_self, hl]
        simp only [Option.map_some', Option.some_bind]
        exact objGet_objSet_ne hk o w
      · rw [lookupA_heapSet_ne hb]

theorem heapStep_refl (h : Heap) : HeapStep h h := fun _ _ => Or.inl rfl

theorem heapStep_trans {h1 h2 h3 : Heap} (s12 : HeapStep h1 h2) (s23 : HeapStep h2 h3) :
    HeapStep h1 h3 := by
  intro a key
  rcases s23 a key with e | ⟨hn2, hu3⟩
  · rcases s12 a key with e2 | ⟨hn1, hu2⟩
    · exact Or.inl (e.trans e2)
    · exact Or.inr ⟨hn1, e.trans hu2⟩
  · rcases s12 a key with e2 | ⟨hn1, hu2⟩
    · exact Or.inr ⟨e2.symm.trans hn2, hu3⟩
    · exact absurd (hu2.symm.trans hn2) (by simp)

theorem setFieldH_heapStep {h : Heap} {a : Nat} {key : String}
    (hv : fieldVal h a key = some .vnull) :
    HeapStep h (setFieldH h a key .vundef) := by
  intro b key2
  by_cases hb : b = a
  · subst hb
    by_cases hk : key2 = key
    · subst hk
      exact Or.inr ⟨hv, fieldVal_setFieldH_self (by rw [hv]; rfl) .vundef⟩
    · exact Or.inl (fieldVal_setFieldH_other (Or.inr hk) .vundef)
  · exact Or.inl (fieldVal_setFieldH_other (Or.inl hb) .vundef)

end WeaviateHandler

namespace WeaviateHandler

theorem heapStep_fieldVal_keep {h h2 : Heap} (st : HeapStep h h2) {a : Nat} {key : String}
    {v : HVal} (hv : fieldVal h a key = some v) (hnn : v ≠ .vnull) :
    fieldVal h2 a key = some v := by
  rcases st a key with e | ⟨hn, _⟩
  · rw [e, hv]
  · rw [hv] at hn
    exact absurd (Option.some_inj.mp hn) hnn

theorem heapStep_pathVal_ref {h h2 : Heap} (st : HeapStep h h2) :
    ∀ (p : List String) (a b : Nat),
      pathVal h a p = some (.vref b) → pathVal h2 a p = some (.vref b) := by
  intro p
  induction p with
  | nil => intro a b hp; exact hp
  | cons key ks ih =>
    intro a b hp
    simp only [pathVal] at hp ⊢
    cases hfv : fieldVal h a key with
    | none => rw [hfv] at hp; cases ks <;> simp at hp
    | some v =>
      cases v with
      | vref c =>
        rw [hfv] at hp
        rw [heapStep_fieldVal_keep st hfv (by simp)]
        exact ih c b hp
      | vnull => rw [hfv] at hp; cases ks <;> simp at hp
      | vundef => rw [hfv] at hp; cases ks <;> simp at hp
      | vstr s => rw [hfv] at hp; cases ks <;> simp at hp
      | vnum i => rw [hfv] at hp; cases ks <;> simp at hp

theorem heapStep_pathVal_undef {h h2 : Heap} (st : HeapStep h h2) :
    ∀ (p : List String) (a : Nat),
      pathVal h a p = some .vundef → pathVal h2 a p = some .vundef := by
  intro p
  induction p with
  | nil => intro a hp; simp [pathVal] at hp
  | cons key ks ih =>
    intro a hp
    simp only [pathVal] at hp ⊢
    cases hfv : fieldVal h a key with
    | none => rw [hfv] at hp; cases ks <;> simp at hp
    | some v =>
      cases v with
      | vref c =>
        rw [hfv] at hp
        rw [heapStep_fieldVal_keep st hfv (by simp)]
        exact ih c hp
      | vundef =>
        rw [hfv] at hp
        rw [heapStep_fieldVal_keep st hfv (by simp)]
        cases ks with
        | nil => exact hp
        | cons k2 ks2 => simp at hp
      | vnull => rw [hfv] at hp; cases ks <;> simp at hp
      | vstr s => rw [hfv] at hp; cases ks <;> simp at hp
      | vnum i => rw [hfv] at hp; cases ks <;> simp at hp

theorem heapStep_pathVal_nullish {h h2 : Heap} (st : HeapStep h h2) :
    ∀ (p : List String) (a : Nat),
      pathVal h a p = some .vnull ∨ pathVal h a p = some .vundef →
      pathVal h2 a p = some .vnull ∨ pathVal h2 a p = some .vundef := by
  intro p
  induction p with
  | nil => intro a hp; rcases hp with hp | hp <;> simp [pathVal] at hp
  | cons key ks ih =>
    intro a hp
    simp only [pathVal] at hp ⊢
    cases hfv : fieldVal h a key with
    | none => rw [hfv] at hp; rcases hp with hp | hp <;> (cases ks <;> simp at hp)
    | some v =>
      cases v with
      | vref c =>
        rw [hfv] at hp
        rw [heapStep_fieldVal_keep st hfv (by simp)]
        exact ih c hp
      | vnull =>
        rw [hfv] at hp
        cases ks with
        | nil =>
          rcases st a key with e | ⟨_, hu⟩
          · rw [e, hfv]; exact Or.inl rfl
          · rw [hu]; exact Or.inr rfl
        | cons k2 ks2 => rcases hp with hp | hp <;> simp at hp
      | vundef =>
        rw [hfv] at hp
        rw [heapStep_fieldVal_keep st hfv (by simp)]
        cases ks with
        | nil => exact Or.inr rfl
        | cons k2 ks2 => rcases hp with hp | hp <;> simp at hp
      | vstr s => rw [hfv] at hp; rcases hp with hp | hp <;> (cases ks <;> simp at hp)
      | vnum i => rw [hfv] at hp; rcases hp with hp | hp <;> (cases ks <;> simp at hp)

theorem rnGo_heapStep :
    ∀ (n : Nat) (h : Heap) (a : Nat) (L : List String) (h2 : Heap),
      rnGo n h a L = some h2 → HeapStep h h2 := by
  intro n
  induction n with
  | zero => intro h a L h2 hr; exact absurd hr (by simp [rnGo])
  | succ n ih =>
    intro h a L h2 hr
    cases L with
    | nil =>
      simp only [rnGo, Option.some_inj] at hr
      subst hr
      exact heapStep_refl h
    | cons k0 L2 =>
      simp only [rnGo] at hr
      cases hfv : fieldVal h a k0 with
      | none =>
        rw [hfv] at hr
        exact ih h a L2 h2 hr
      | some v =>
        cases v with
        | vnull =>
          rw [hfv] at hr
          exact heapStep_trans (setFieldH_heapStep hfv) (ih _ a L2 h2 hr)
        | vref b =>
          simp only [hfv] at hr
          cases hlb : lookupA h b with
          | none =>
            simp only [hlb] at hr
            exact ih h a L2 h2 hr
          | some o =>
            simp only [hlb] at hr
            cases hrg : rnGo n h b (o.map Prod.fst) with
            | none => simp only [hrg] at hr; exact Option.noConfusion hr
            | some h1 =>
              simp only [hrg] at hr
              exact heapStep_trans (ih h b _ h1 hrg) (ih h1 a L2 h2 hr)
        | vundef => rw [hfv] at hr; exact ih h a L2 h2 hr
        | vstr s => rw [hfv] at hr; exact ih h a L2 h2 hr
        | vnum i => rw [hfv] at hr; exact ih h a L2 h2 hr

end WeaviateHandler

namespace WeaviateHandler

theorem rnGo_visits :
    ∀ (n : Nat) (h : Heap) (a : Nat) (L : List String) (h2 : Heap) (key : String)
      (ks : List String),
      rnGo n h a L = some h2 → key ∈ L →
      (pathVal h a (key :: ks) = some .vnull ∨ pathVal h a (key :: ks) = some .vundef) →
      pathVal h2 a (key :: ks) = some .vundef := by
  intro n
  induction n with
  | zero => intro h a L h2 key ks hr; exact absurd hr (by simp [rnGo])
  | succ n ih =>
    intro h a L h2 key ks hr hmem hp
    cases L with
    | nil => simp at hmem
    | cons k0 L2 =>
      simp only [rnGo] at hr
      cases hfv : fieldVal h a k0 with
      | none =>
        simp only [hfv] at hr
        rcases List.mem_cons.mp hmem with heq | hmem2
        · subst heq
          exfalso
          rcases hp with hp | hp <;>
            (simp only [pathVal, hfv] at hp; cases ks <;> simp at hp)
        · exact ih h a L2 h2 key ks hr hmem2 hp
      | some v =>
        cases v with
        | vnull =>
          simp only [hfv] at hr
          have st1 : HeapStep h (setFieldH h a k0 .vundef) := setFieldH_heapStep hfv
          rcases List.mem_cons.mp hmem with heq | hmem2
          · subst heq
            have hks : ks = [] := by
              cases ks with
              | nil => rfl
              | cons k2 ks2 =>
                exfalso
                rcases hp with hp | hp <;>
                  (simp only [pathVal, hfv] at hp; exact Option.noConfusion hp)
            subst hks
            have h1v : pathVal (setFieldH h a key .vundef) a [key] = some .vundef := by
              simp only [pathVal]
              rw [fieldVal_setFieldH_self (by rw [hfv]; rfl) .vundef]
            exact heapStep_pathVal_undef (rnGo_heapStep n _ a L2 h2 hr) [key] a h1v
          · exact ih _ a L2 h2 key ks hr hmem2
              (heapStep_pathVal_nullish st1 (key :: ks) a hp)
        | vref b =>
          simp only [hfv] at hr
          cases hlb : lookupA h b with
          | none =>
            simp only [hlb] at hr
            rcases List.mem_cons.mp hmem with heq | hmem2
            · subst heq
              exfalso
              have hpb : pathVal h b ks = some .vnull ∨ pathVal h b ks = some .vundef := by
                rcases hp with hp | hp <;> simp only [pathVal, hfv] at hp
                · exact Or.inl hp
                · exact Or.inr hp
              cases ks with
              | nil => rcases hpb with hpb | hpb <;> simp [pathVal] at hpb
              | cons k2 ks2 =>
                have hfb : fieldVal h b k2 = none := by simp [fieldVal, hlb]
                rcases hpb with hpb | hpb <;>
                  (simp only [pathVal, hfb] at hpb; cases ks2 <;> simp at hpb)
            · exact ih h a L2 h2 key ks hr hmem2 hp
          | some o =>
            simp only [hlb] at hr
            cases hrg : rnGo n h b (o.map Prod.fst) with
            | none => simp only [hrg] at hr; exact Option.noConfusion hr
            | some h1 =>
              simp only [hrg] at hr
              have st1 : HeapStep h h1 := rnGo_heapStep n h b _ h1 hrg
              have st2 : HeapStep h1 h2 := rnGo_heapStep n h1 a L2 h2 hr
              rcases List.mem_cons.mp hmem with heq | hmem2
              · subst heq
                have hpb : pathVal h b ks = some .vnull ∨ pathVal h b ks = some .vundef := by
                  rcases hp with hp | hp <;> simp only [pathVal, hfv] at hp
                  · exact Or.inl hp
                  · exact Or.inr hp
                cases ks with
                | nil =>
                  exfalso
                  rcases hpb with hpb | hpb <;> simp [pathVal] at hpb
                | cons k2 ks2 =>
                  have hk2mem : k2 ∈ o.map Prod.fst := by
                    cases hfb : fieldVal h b k2 with
                    | none =>
                      exfalso
                      rcases hpb with hpb | hpb <;>
                        (simp only [pathVal, hfb] at hpb; cases ks2 <;> simp at hpb)
                    | some w =>
                      have hgw : objGet o k2 = some w := by
                        simpa [fieldVal, hlb] using hfb
                      exact List.mem_map.mpr ⟨(k2, w), objGet_mem o k2 w hgw, rfl⟩
                  have h1b : pathVal h1 b (k2 :: ks2) = some .vundef :=
                    ih h b (o.map Prod.fst) h1 k2 ks2 hrg hk2mem hpb
                  have hfv2 : fieldVal h2 a key = some (.vref b) :=
                    heapStep_fieldVal_keep st2
                      (heapStep_fieldVal_keep st1 hfv (by simp)) (by simp)
                  have h2b : pathVal h2 b (k2 :: ks2) = some .vundef :=
                    heapStep_pathVal_undef st2 (k2 :: ks2) b h1b
                  simp only [pathVal, hfv2]
                  exact h2b
              · exact ih h1 a L2 h2 key ks hr hmem2
                  (heapStep_pathVal_nullish st1 (key :: ks) a hp)
        | vundef =>
          simp only [hfv] at hr
          rcases List.mem_cons.mp hmem with heq | hmem2
          · subst heq
            have st2 : HeapStep h h2 := rnGo_heapStep n h a L2 h2 hr
            rcases hp with hp | hp
            · exfalso
              simp only [pathVal, hfv] at hp
              cases ks <;> simp at hp
            · exact heapStep_pathVal_undef st2 (key :: ks) a hp
          · exact ih h a L2 h2 key ks hr hmem2 hp
        | vstr s =>
          simp only [hfv] at hr
          rcases List.mem_cons.mp hmem with heq | hmem2
          · subst heq
            exfalso
            rcases hp with hp | hp <;>
              (simp only [pathVal, hfv] at hp; cases ks <;> simp at hp)
          · exact ih h a L2 h2 key ks hr hmem2 hp
        | vnum i =>
          simp only [hfv] at hr
          rcases List.mem_cons.mp hmem with heq | hmem2
          · subst heq
            exfalso
            rcases hp with hp | hp <;>
              (simp only [pathVal, hfv] at hp; cases ks <;> simp at hp)
          · exact ih h a L2 h2 key ks hr hmem2 hp

end WeaviateHandler

namespace WeaviateHandler

theorem mem_objSet : ∀ (o : HObj) (key : String) (w : HVal) (kv : String × HVal),
    kv ∈ objSet o key w → kv = (key, w) ∨ kv ∈ o := by
  intro o key w
  induction o with
  | nil => intro kv hkv; simp [objSet] at hkv
  | cons e t ih =>
    intro kv hkv
    obtain ⟨k, v⟩ := e
    by_cases hk : k = key <;> simp only [objSet, hk, if_pos, if_neg, ite_true, ite_false] at hkv
    · rcases List.mem_cons.mp hkv with heq | hmem
      · exact Or.inl heq
      · rcases ih kv hmem with heq | hmem2
        · exact Or.inl heq
        · exact Or.inr (List.mem_cons_of_mem _ hmem2)
    · rcases List.mem_cons.mp hkv with heq | hmem
      · exact Or.inr (heq ▸ List.mem_cons_self _ _)
      · rcases ih kv hmem with heq | hmem2
        · exact Or.inl heq
        · exact Or.inr (List.mem_cons_of_mem _ hmem2)

theorem mem_objSetOrAppend : ∀ (o : HObj) (key : String) (w : HVal) (kv : String × HVal),
    kv ∈ objSetOrAppend o key w → kv = (key, w) ∨ kv ∈ o := by
  intro o key w kv hkv
  unfold objSetOrAppend at hkv
  by_cases hh : objHasKey o key
  · rw [if_pos hh] at hkv
    exact mem_objSet o key w kv hkv
  · rw [if_neg hh] at hkv
    rcases List.mem_append.mp hkv with hmem | hmem
    · exact Or.inr hmem
    · exact Or.inl (by simpa using hmem)

theorem mem_objDelete : ∀ (o : HObj) (key : String) (kv : String × HVal),
    kv ∈ objDelete o key → kv ∈ o := by
  intro o key
  induction o with
  | nil => intro kv hkv; simp [objDelete] at hkv
  | cons e t ih =>
    intro kv hkv
    obtain ⟨k, v⟩ := e
    by_cases hk : k = key <;> simp only [objDelete, hk, ite_true, ite_false] at hkv
    · exact List.mem_cons_of_mem _ (ih kv hkv)
    · rcases List.mem_cons.mp hkv with heq | hmem
      · exact heq ▸ List.mem_cons_self _ _
      · exact List.mem_cons_of_mem _ (ih kv hmem)

theorem noRefTo_setFieldH {h : Heap} {p : Nat} (hnr : NoRefTo h p) {w : HVal}
    (hw : w ≠ .vref p) (a : Nat) (key : String) :
    NoRefTo (setFieldH h a key w) p := by
  unfold setFieldH
  cases hl : lookupA h a with
  | none => exact hnr
  | some o =>
    intro e he kv hkv
    have hgen : ∀ (t : Heap), e ∈ heapSet t a (objSet o key w) →
        e = (a, objSet o key w) ∨ e ∈ t := by
      intro t
      induction t with
      | nil => intro he2; simp [heapSet] at he2
      | cons e2 t2 ih =>
        intro he2
        obtain ⟨c, oc⟩ := e2
        by_cases hc : c = a <;>
          simp only [heapSet, hc, ite_true, ite_false] at he2
        · rcases List.mem_cons.mp he2 with heq | hmem
          · exact Or.inl heq
          · rcases ih hmem with heq | hmem2
            · exact Or.inl heq
            · exact Or.inr (List.mem_cons_of_mem _ hmem2)
        · rcases List.mem_cons.mp he2 with heq | hmem
          · exact Or.inr (heq ▸ List.mem_cons_self _ _)
          · rcases ih hmem with heq | hmem2
            · exact Or.inl heq
            · exact Or.inr (List.mem_cons_of_mem _ hmem2)
    rcases hgen h he with heq | hmem
    · subst heq
      rcases mem_objSet o key w kv hkv with heq | hmem2
      · rw [heq]; exact hw
      · exact hnr (a, o) (lookupA_mem h a o hl) kv hmem2
    · exact hnr e hmem kv hkv

theorem rnGo_untouched :
    ∀ (n : Nat) (h : Heap) (a : Nat) (L : List String) (h2 : Heap) (p : Nat),
      rnGo n h a L = some h2 → a ≠ p → NoRefTo h p →
      lookupA h2 p = lookupA h p ∧ NoRefTo h2 p := by
  intro n
  induction n with
  | zero => intro h a L h2 p hr; exact absurd hr (by simp [rnGo])
  | succ n ih =>
    intro h a L h2 p hr hap hnr
    cases L with
    | nil =>
      simp only [rnGo, Option.some_inj] at hr
      subst hr
      exact ⟨rfl, hnr⟩
    | cons k0 L2 =>
      simp only [rnGo] at hr
      cases hfv : fieldVal h a k0 with
      | none =>
        simp only [hfv] at hr
        exact ih h a L2 h2 p hr hap hnr
      | some v =>
        cases v with
        | vnull =>
          simp only [hfv] at hr
          have hnr1 : NoRefTo (setFieldH h a k0 .vundef) p :=
            noRefTo_setFieldH hnr (by simp) a k0
          have hl1 : lookupA (setFieldH h a k0 .vundef) p = lookupA h p := by
            unfold setFieldH
            cases hl : lookupA h a with
            | none => simp only [hl]
            | some o => simp only [hl]; exact lookupA_heapSet_ne (Ne.symm hap) h _
          obtain ⟨he, hn⟩ := ih _ a L2 h2 p hr hap hnr1
          exact ⟨he.trans hl1, hn⟩
        | vref b =>
          simp only [hfv] at hr
          obtain ⟨o0, hlo0, hgo0⟩ := fieldVal_eq_some hfv
          have hbp : b ≠ p := by
            intro hbe
            subst hbe
            exact hnr (a, o0) (lookupA_mem h a o0 hlo0) (k0, .vref b)
              (objGet_mem o0 k0 (.vref b) hgo0) rfl
          cases hlb : lookupA h b with
          | none =>
            simp only [hlb] at hr
            exact ih h a L2 h2 p hr hap hnr
          | some o =>
            simp only [hlb] at hr
            cases hrg : rnGo n h b (o.map Prod.fst) with
            | none => simp only [hrg] at hr; exact Option.noConfusion hr
            | some h1 =>
              simp only [hrg] at hr
              obtain ⟨he1, hn1⟩ := ih h b _ h1 p hrg hbp hnr
              obtain ⟨he2, hn2⟩ := ih h1 a L2 h2 p hr hap hn1
              exact ⟨he2.trans he1, hn2⟩
        | vundef =>
          simp only [hfv] at hr
          exact ih h a L2 h2 p hr hap hnr
        | vstr s =>
          simp only [hfv] at hr
          exact ih h a L2 h2 p hr hap hnr
        | vnum i =>
          simp only [hfv] at hr
          exact ih h a L2 h2 p hr hap hnr

end WeaviateHandler

namespace WeaviateHandler

theorem lookupA_cons_ne {b anew : Nat} (hb : b ≠ anew) (F : HObj) (h : Heap) :
    lookupA ((anew, F) :: h) b = lookupA h b := by
  simp [lookupA, Ne.symm hb]

theorem fieldVal_cons_ne {b anew : Nat} (hb : b ≠ anew) (F : HObj) (h : Heap) (key : String) :
    fieldVal ((anew, F) :: h) b key = fieldVal h b key := by
  unfold fieldVal
  rw [lookupA_cons_ne hb]

theorem fieldVal_cons_self (anew : Nat) (F : HObj) (h : Heap) (key : String) :
    fieldVal ((anew, F) :: h) anew key = objGet F key := by
  simp [fieldVal, lookupA]

theorem pathVal_cons_fresh {h : Heap} {anew : Nat} (hnr : NoRefTo h anew) (F : HObj) :
    ∀ (p : List String) (a : Nat), a ≠ anew →
      pathVal ((anew, F) :: h) a p = pathVal h a p := by
  intro p
  induction p with
  | nil => intro a ha; rfl
  | cons key ks ih =>
    intro a ha
    simp only [pathVal]
    rw [fieldVal_cons_ne ha]
    cases hv : fieldVal h a key with
    | none => rfl
    | some v =>
      cases v with
      | vref c =>
        obtain ⟨o, hlo, hgo⟩ := fieldVal_eq_some hv
        have hc : c ≠ anew := by
          intro hce
          subst hce
          exact hnr (a, o) (lookupA_mem h a o hlo) (key, .vref c)
            (objGet_mem o key (.vref c) hgo) rfl
        exact ih c hc
      | vnull => rfl
      | vundef => rfl
      | vstr s => rfl
      | vnum i => rfl

theorem objGet_append (o o2 : HObj) (key : String) :
    objGet (o ++ o2) key =
      match objGet o key with
      | some v => some v
      | none => objGet o2 key := by
  induction o with
  | nil => rfl
  | cons kv t ih =>
    obtain ⟨k, v⟩ := kv
    by_cases hk : k = key <;> simp [objGet, hk, ih]

theorem objGet_objSetOrAppend_self (o : HObj) (key : String) (w : HVal) :
    objGet (objSetOrAppend o key w) key = some w := by
  unfold objSetOrAppend
  by_cases hh : objHasKey o key
  · rw [if_pos hh, objGet_objSet_self]
    obtain ⟨v, hv⟩ := Option.isSome_iff_exists.mp (by simpa [objHasKey] using hh)
    rw [hv]
    rfl
  · rw [if_neg hh, objGet_append]
    have hnone : objGet o key = none :=
      Option.not_isSome_iff_eq_none.mp (by simpa [objHasKey] using hh)
    rw [hnone]
    simp [objGet]

theorem objGet_objSetOrAppend_ne {key2 key : String} (hne : key2 ≠ key) (o : HObj) (w : HVal) :
    objGet (objSetOrAppend o key w) key2 = objGet o key2 := by
  unfold objSetOrAppend
  by_cases hh : objHasKey o key
  · rw [if_pos hh]
    exact objGet_objSet_ne hne o w
  · rw [if_neg hh, objGet_append]
    cases hg : objGet o key2 with
    | none => simp [objGet, Ne.symm hne]
    | some v => rfl

theorem objGet_objDelete_ne {key2 dkey : String} (hne : key2 ≠ dkey) (o : HObj) :
    objGet (objDelete o dkey) key2 = objGet o key2 := by
  induction o with
  | nil => rfl
  | cons kv t ih =>
    obtain ⟨k, v⟩ := kv
    by_cases hk : k = dkey
    · subst hk
      simp [objDelete, objGet, ih, Ne.symm hne]
    · by_cases hk2 : k = key2 <;> simp [objDelete, objGet, hk, hk2, ih, hne]

theorem objGet_mkInsertFields_msgid (po : HObj) (rv : HVal) :
    objGet (mkInsertFieldsHeap po rv) "messageID" = some ((objGet po "id").getD .vundef) := by
  unfold mkInsertFieldsHeap
  rw [objGet_objDelete_ne (by decide), objGet_objSetOrAppend_ne (by decide),
    objGet_objSetOrAppend_self]

theorem objGet_mkInsertFields_other {key : String} (hid : key ≠ "id")
    (hmid : key ≠ "messageID") (hrole : key ≠ "role") (po : HObj) (rv : HVal) :
    objGet (mkInsertFieldsHeap po rv) key = objGet po key := by
  unfold mkInsertFieldsHeap
  rw [objGet_objDelete_ne hid, objGet_objSetOrAppend_ne hrole, objGet_objSetOrAppend_ne hmid]

theorem noRefTo_cons_insert {h : Heap} {p paramsAddr : Nat} {po : HObj}
    (hnr : NoRefTo h p) (hpo : lookupA h paramsAddr = some po) {rv : HVal}
    (hrv : rv ≠ .vref p) (anew : Nat) :
    NoRefTo ((anew, mkInsertFieldsHeap po rv) :: h) p := by
  intro e he kv hkv
  rcases List.mem_cons.mp he with heq | hmem
  · subst heq
    have hkvF : kv ∈ mkInsertFieldsHeap po rv := hkv
    unfold mkInsertFieldsHeap at hkvF
    rcases mem_objDelete _ _ _ hkvF with hkv2
    rcases mem_objSetOrAppend _ _ _ _ hkv2 with heq2 | hkv3
    · rw [heq2]; exact hrv
    · rcases mem_objSetOrAppend _ _ _ _ hkv3 with heq3 | hkv4
      · rw [heq3]
        cases hgi : objGet po "id" with
        | none => simp [hgi]
        | some v =>
          simp only [hgi, Option.getD_some]
          exact hnr (paramsAddr, po) (lookupA_mem h paramsAddr po hpo) ("id", v)
            (objGet_mem po "id" v hgi)
      · exact hnr (paramsAddr, po) (lookupA_mem h paramsAddr po hpo) kv hkv4
  · exact hnr e hmem kv hkv

theorem replaceNullsHeap_parts {fuel : Nat} {h h2 : Heap} {a : Nat} {F : HObj}
    (hla : lookupA h a = some F)
    (hrun : replaceNullsHeap fuel h a = some h2) :
    rnGo fuel h a (F.map Prod.fst) = some h2 := by
  unfold replaceNullsHeap at hrun
  rw [hla] at hrun
  exact hrun

/-- C10 counterexample: the claim as stated quantifies over every
payload with a null at depth two or more, but a nested null reached
through the top-level key `role` (or `messageID`) is not overwritten:
the shallow copy replaces that field with the role argument
(resp. `params.id`) before `replaceNulls` runs, so the caller's nested
object still holds `null` after the call. -/
theorem claim_C10_counterexample :
    pathVal [(0, [("role", .vref 1)]), (1, [("x", .vnull)])] 0 ["role", "x"] = some .vnull
    ∧ storePayloadHeap 10 [(0, [("role", .vref 1)]), (1, [("x", .vnull)])] 0 2 (.vstr "user")
        = some [(2, [("role", .vstr "user"), ("messageID", .vundef)]),
                (0, [("role", .vref 1)]), (1, [("x", .vnull)])]
    ∧ pathVal [(2, [("role", .vstr "user"), ("messageID", .vundef)]),
               (0, [("role", .vref 1)]), (1, [("x", .vnull)])] 0 ["role", "x"] = some .vnull
    ∧ (some HVal.vnull ≠ some HVal.vundef) :=
  ⟨rfl, rfl, rfl, by decide⟩

/-- C10 (amended): because the insert object is a shallow copy of the
caller's payload, `StoreDiscordMessagePayload` mutates the caller's
payload in place below the top level: for every payload whose null sits
at nesting depth two or greater under a top-level field other than
`messageID` and `role` (these two are overwritten in the copy before
normalization; nulls under `id` are still reached through the
`messageID` remap), after the call that null has been overwritten with
`undefined` inside the caller's own nested object, while the caller's
top-level object is left unchanged. -/
theorem claim_C10_shallow_copy_mutation (h : Heap) (paramsAddr freshAddr : Nat) (po : HObj)
    (role : String) (fuel : Nat) (h2 : Heap) (key : String) (q : List String)
    (hpo : lookupA h paramsAddr = some po)
    (hfresh : lookupA h freshAddr = none)
    (hnrP : NoRefTo h paramsAddr)
    (hnrF : NoRefTo h freshAddr)
    (hrun : storePayloadHeap fuel h paramsAddr freshAddr (.vstr role) = some h2)
    (hmid : key ≠ "messageID") (hrole : key ≠ "role")
    (hq : q ≠ [])
    (hnull : pathVal h paramsAddr (key :: q) = some .vnull) :
    pathVal h2 paramsAddr (key :: q) = some .vundef
    ∧ lookupA h2 paramsAddr = some po := by
  have hne : paramsAddr ≠ freshAddr := by
    intro he
    rw [he, hfresh] at hpo
    exact Option.noConfusion hpo
  unfold storePayloadHeap at hrun
  simp only [hpo] at hrun
  obtain ⟨c, hfc, hpc⟩ :
      ∃ c, fieldVal h paramsAddr key = some (.vref c) ∧ pathVal h c q = some .vnull := by
    simp only [pathVal] at hnull
    cases hv : fieldVal h paramsAddr key with
    | none =>
      rw [hv] at hnull
      cases q with
      | nil => exact absurd rfl hq
      | cons q1 qs => exact Option.noConfusion hnull
    | some v =>
      cases v with
      | vref c => rw [hv] at hnull; exact ⟨c, rfl, hnull⟩
      | vnull =>
        rw [hv] at hnull
        cases q with
        | nil => exact absurd rfl hq
        | cons q1 qs => exact Option.noConfusion hnull
      | vundef =>
        rw [hv] at hnull
        cases q with
        | nil => simp at hnull
        | cons q1 qs => exact Option.noConfusion hnull
      | vstr s =>
        rw [hv] at hnull
        cases q with
        | nil => simp at hnull
        | cons q1 qs => exact Option.noConfusion hnull
      | vnum i =>
        rw [hv] at hnull
        cases q with
        | nil => simp at hnull
        | cons q1 qs => exact Option.noConfusion hnull
  obtain ⟨po2, hlo2, hgo2⟩ := fieldVal_eq_some hfc
  have hpo2 : po2 = po := by
    rw [hpo] at hlo2
    exact (Option.some_inj.mp hlo2).symm
  rw [hpo2] at hgo2
  clear hlo2 hpo2
  have hcneF : c ≠ freshAddr := by
    intro hce
    subst hce
    exact hnrF (paramsAddr, po) (lookupA_mem h paramsAddr po hpo) (key, .vref c)
      (objGet_mem po key (.vref c) hgo2) rfl
  have hl1f : lookupA ((freshAddr, mkInsertFieldsHeap po (.vstr role)) :: h) freshAddr
      = some (mkInsertFieldsHeap po (.vstr role)) := by
    simp [lookupA]
  have hgo : rnGo fuel ((freshAddr, mkInsertFieldsHeap po (.vstr role)) :: h) freshAddr
      ((mkInsertFieldsHeap po (.vstr role)).map Prod.fst) = some h2 :=
    replaceNullsHeap_parts hl1f hrun
  have hstep : HeapStep ((freshAddr, mkInsertFieldsHeap po (.vstr role)) :: h) h2 :=
    rnGo_heapStep fuel _ freshAddr _ h2 hgo
  obtain ⟨key2, hgF⟩ :
      ∃ key2, objGet (mkInsertFieldsHeap po (.vstr role)) key2 = some (.vref c) := by
    by_cases hkid : key = "id"
    · refine ⟨"messageID", ?_⟩
      rw [objGet_mkInsertFields_msgid]
      subst hkid
      rw [hgo2]
      rfl
    · exact ⟨key, by rw [objGet_mkInsertFields_other hkid hmid hrole]; exact hgo2⟩
  have hnr1P : NoRefTo ((freshAddr, mkInsertFieldsHeap po (.vstr role)) :: h) paramsAddr :=
    noRefTo_cons_insert hnrP hpo (by simp) freshAddr
  have hunt := rnGo_untouched fuel _ freshAddr _ h2 paramsAddr hgo (Ne.symm hne) hnr1P
  have hl2p : lookupA h2 paramsAddr = some po := by
    rw [hunt.1, lookupA_cons_ne hne, hpo]
  refine ⟨?_, hl2p⟩
  have hfv1 : fieldVal ((freshAddr, mkInsertFieldsHeap po (.vstr role)) :: h) freshAddr key2
      = some (.vref c) := by
    rw [fieldVal_cons_self]
    exact hgF
  have hp1 : pathVal ((freshAddr, mkInsertFieldsHeap po (.vstr role)) :: h) c q
      = some .vnull := by
    rw [pathVal_cons_fresh hnrF (mkInsertFieldsHeap po (.vstr role)) q c hcneF]
    exact hpc
  have hpath1 : pathVal ((freshAddr, mkInsertFieldsHeap po (.vstr role)) :: h) freshAddr
      (key2 :: q) = some .vnull := by
    simp only [pathVal, hfv1]
    exact hp1
  have hmemk2 : key2 ∈ (mkInsertFieldsHeap po (.vstr role)).map Prod.fst :=
    List.mem_map.mpr ⟨(key2, .vref c), objGet_mem _ _ _ hgF, rfl⟩
  have hvisit : pathVal h2 freshAddr (key2 :: q) = some .vundef :=
    rnGo_visits fuel _ freshAddr _ h2 key2 q hgo hmemk2 (Or.inl hpath1)
  have hfvf2 : fieldVal h2 freshAddr key2 = some (.vref c) :=
    heapStep_fieldVal_keep hstep hfv1 (by simp)
  have hq2 : pathVal h2 c q = some .vundef := by
    simp only [pathVal, hfvf2] at hvisit
    exact hvisit
  have hfp2 : fieldVal h2 paramsAddr key = some (.vref c) := by
    unfold fieldVal
    rw [hl2p]
    simpa using hgo2
  simp only [pathVal, hfp2]
  exact hq2

end WeaviateHandler

namespace WeaviateHandler

theorem claim_C10_witness :
    pathVal [(2, [("a", .vref 1), ("messageID", .vundef), ("role", .vstr "user")]),
             (0, [("a", .vref 1)]), (1, [("x", .vundef)])] 0 ["a", "x"] = some .vundef
    ∧ lookupA [(2, [("a", .vref 1), ("messageID", .vundef), ("role", .vstr "user")]),
             (0, [("a", .vref 1)]), (1, [("x", .vundef)])] 0 = some [("a", .vref 1)] :=
  claim_C10_shallow_copy_mutation [(0, [("a", .vref 1)]), (1, [("x", .vnull)])] 0 2
    [("a", .vref 1)] "user" 6 _ "a" ["x"] rfl rfl (by unfold NoRefTo; decide)
    (by unfold NoRefTo; decide) rfl (by decide) (by decide) (by decide) rfl

end WeaviateHandler
